import Mathlib

/-!
# Verification of the ontology-utility layer of `utils.py`

This file gives a shallow embedding, in Lean 4, of the ontology/graph
utility functions of the repository (`src/utils.py`):

* `overlap` — the interleaved lazy set-overlap test;
* `subtype` / `supertype` — the taxonomy relation oracle, built on
  `overlap` and on the ancestor/descendant enumeration of the underlying
  ontology library (owlready2); the library's `Class.descendants` /
  `Class.ancestors` traversals are embedded as a fuel-bounded
  reachability enumeration `reachList` over explicit child/parent
  adjacency functions;
* `owl_name` / `replace_symbols_with` — the lexical normalizer (strings
  are modelled as lists of Unicode code points; the third-party
  `unidecode` transliteration is a parameter of the embedding);
* the `KnowledgeGraph` mutation engine: `add_property`,
  `set_class_of_instance`, `add_instance`, `merge_instances` (with the
  cascading `destroy_entity` of owlready2), `visit_classes_depth_first`
  and `_find_root_class`.

Theorems about these definitions settle the specification claims.
-/

namespace SpecProof

/-! ## The set-overlap primitive (`overlap`, `src/utils.py` lines 33-57)

The Python function walks the two iterables in lock-step, one element
from `a` then one from `b` per round, maintaining two visited sets, and
returns `True` as soon as a freshly pulled element is found in the other
side's visited set.  `overlapGo` is that loop, with the visited sets as
accumulator lists; pattern `(a :: as, b :: bs)` is one full round in
which neither side is exhausted, the other patterns are the rounds after
one side has raised `StopIteration`. -/

/-- The rounds after iterator `b` has been exhausted (`over_b` is set):
each remaining element of `a` is checked against the final visited set
of `b`; `met_in_a` keeps growing in the Python loop but is no longer
read, so it is dropped here. -/
def overlapDrainA {α : Type} [DecidableEq α] : List α → List α → Bool
  | [], _ => false
  | a :: as, metB => if a ∈ metB then true else overlapDrainA as metB

/-- The rounds after iterator `a` has been exhausted (`over_a` is set),
symmetrically. -/
def overlapDrainB {α : Type} [DecidableEq α] : List α → List α → Bool
  | [], _ => false
  | b :: bs, metA => if b ∈ metA then true else overlapDrainB bs metA

/-- The lock-step loop while both iterators are live: one element of
`a` then one element of `b` per round; when one side runs out the loop
degenerates into the corresponding drain phase. -/
def overlapGo {α : Type} [DecidableEq α] :
    List α → List α → List α → List α → Bool
  | [], bs, metA, _ => overlapDrainB bs metA
  | as, [], _, metB => overlapDrainA as metB
  | a :: as, b :: bs, metA, metB =>
      if a ∈ metB then true
      else if b ∈ a :: metA then true
      else overlapGo as bs (a :: metA) (b :: metB)

/-- The function `overlap(a, b)` of `src/utils.py`: the visited sets
start empty. -/
def overlap {α : Type} [DecidableEq α] (a b : List α) : Bool :=
  overlapGo a b [] []

/-! ## The taxonomy and owlready2's ancestor/descendant enumeration

A taxonomy is a set of classes with a direct-superclass function
(`parents`, owlready2's `is_a`) and the inverse direct-subclass function
(`children`, owlready2's `subclasses()`).  owlready2 keeps the two in
sync through its reverse index; theorems that need this take the
`Coherent` hypothesis below.

`Class.descendants(include_self)` / `Class.ancestors(include_self)`
collect, by an unbounded recursive traversal, everything reachable
through `children` / `parents`; the class itself is included exactly
when `include_self` is set, but the recursion into the adjacent classes
is unconditional.  The traversal terminates because a taxonomy is
acyclic; the embedding makes it structurally recursive on a fuel bound,
and theorems quantify over the fuel (or assume it large enough via a
rank function that witnesses acyclicity). -/
structure Taxonomy (C : Type) where
  children : C → List C
  parents : C → List C

/-- The child and parent adjacency functions are inverse to each other
(owlready2 maintains this through its reverse index). -/
def Coherent {C : Type} (t : Taxonomy C) : Prop :=
  ∀ a b : C, a ∈ t.children b ↔ b ∈ t.parents a

/-- A measure `rank` strictly decreases along the `step` adjacency; the existence
of such a measure is how the embedding states that the taxonomy is
acyclic (and it bounds every path length by `rank` of its start). -/
def RankedStep {C : Type} (step : C → List C) (rank : C → Nat) : Prop :=
  ∀ a b : C, b ∈ step a → rank b < rank a

/-- Fuel-bounded reachability enumeration: the traversal owlready2 uses
for `descendants` (with `step` the subclass function) and `ancestors`
(with `step` the superclass function).  `includeSelf` only controls
whether the start node itself is listed; recursion is unconditional. -/
def reachList {C : Type} (step : C → List C) :
    Nat → Bool → C → List C
  | 0, includeSelf, c => if includeSelf then [c] else []
  | n + 1, includeSelf, c =>
      (if includeSelf then [c] else []) ++
        (step c).flatMap (fun y => reachList step n true y)

/-- Paths of length at most `n` along `step`, decomposed at the first
edge. -/
def pathLe {C : Type} (step : C → List C) : Nat → C → C → Prop
  | 0, a, b => b = a
  | n + 1, a, b => b = a ∨ ∃ y ∈ step a, pathLe step n y b

/-! ## The taxonomy relation oracle (`subtype`/`supertype`, lines 67-72)

```python
def subtype(cls1, cls2, strict=False):
    return overlap([cls1], cls2.descendants(include_self=not strict))

def supertype(cls1, cls2, strict=False):
    return overlap([cls1], cls2.ancestors(include_self=not strict))
```
-/
def subtype {C : Type} [DecidableEq C] (t : Taxonomy C) (fuel : Nat)
    (cls1 cls2 : C) (strict : Bool := false) : Bool :=
  overlap [cls1] (reachList t.children fuel (!strict) cls2)

def supertype {C : Type} [DecidableEq C] (t : Taxonomy C) (fuel : Nat)
    (cls1 cls2 : C) (strict : Bool := false) : Bool :=
  overlap [cls1] (reachList t.parents fuel (!strict) cls2)

/-! ## A concrete taxonomy: Thing ⊃ Animal ⊃ Bird ⊃ Penguin

The chain used by the specification scenarios.  `thing` models
owlready2's universal top `owl.Thing`: the top of every parent chain. -/
inductive AClass : Type
  | thing
  | animal
  | bird
  | penguin
deriving DecidableEq, Repr

def chainTaxonomy : Taxonomy AClass where
  children c :=
    match c with
    | .thing => [.animal]
    | .animal => [.bird]
    | .bird => [.penguin]
    | .penguin => []
  parents c :=
    match c with
    | .thing => []
    | .animal => [.thing]
    | .bird => [.animal]
    | .penguin => [.bird]

def chainRank (c : AClass) : Nat :=
  match c with
  | .thing => 3
  | .animal => 2
  | .bird => 1
  | .penguin => 0

instance : Fintype AClass where
  elems := {AClass.thing, AClass.animal, AClass.bird, AClass.penguin}
  complete := by intro c; cases c <;> decide

/-! ## Reclassification (`set_class_of_instance`, lines 117-134)

```python
def set_class_of_instance(self, instance, cls):
    initial = set(instance.is_instance_of)
    too_generic_types = [c for c in instance.is_instance_of
                         if supertype(c, cls, strict=True)]
    too_specific_types = [c for c in instance.is_instance_of
                          if subtype(c, cls, strict=False)]
    if len(too_generic_types) > 0:
        for type in too_generic_types:
            instance.is_instance_of.remove(type)
    if len(too_specific_types) == 0:
        instance.is_instance_of.append(cls)
    if len(instance.is_instance_of) > 1 and \
            owlready.ThingClass in instance.is_instance_of:
        instance.is_instance_of.remove(owlready.Thing)
    ...
    return instance
```

The core acts on the instance's `is_instance_of` list.  Notes on the
embedding:

* `too_generic_types` lists one entry per matching occurrence and the
  `remove` loop deletes, for each entry, the first occurrence of that
  value; since the predicate depends only on the value, the net effect
  is to delete every matching occurrence, i.e. a filter.
* The third `if` tests `owlready.ThingClass in instance.is_instance_of`:
  `ThingClass` is the *metaclass* of owlready classes, while the list
  holds classes (instances of that metaclass), so the membership test
  compares a metaclass with classes and is never true — the branch is
  dead code and the embedding drops it. -/
def set_class_of_instance_list {C : Type} [DecidableEq C]
    (t : Taxonomy C) (fuel : Nat) (is_instance_of : List C) (cls : C) :
    List C :=
  let too_generic_types :=
    is_instance_of.filter (fun c => supertype t fuel c cls true)
  let too_specific_types :=
    is_instance_of.filter (fun c => subtype t fuel c cls false)
  let l1 :=
    if too_generic_types.length > 0 then
      is_instance_of.filter (fun c => !(supertype t fuel c cls true))
    else is_instance_of
  if too_specific_types.length = 0 then l1 ++ [cls] else l1

/-- The most-specific-class invariant, stated with the code's own
oracle: no member of the direct-class list is a strict ancestor of
another member (nor of itself). -/
def MostSpecificInv {C : Type} [DecidableEq C] (t : Taxonomy C)
    (fuel : Nat) (l : List C) : Prop :=
  ∀ a ∈ l, ∀ b ∈ l, supertype t fuel a b true = false

/-! ## Depth-first taxonomy traversal (lines 167-176)

```python
def visit_classes_depth_first(self, root=None, postorder=True):
    root = self._find_root_class() if root is None else root
    root = self.onto[root] if isinstance(root, str) else root
    if not postorder:
        yield root
    for child in root.subclasses():
        yield from self.visit_classes_depth_first(child, postorder)
    if postorder:
        yield root
```

The generator is embedded as the list of yielded classes, with a fuel
bound on the recursion depth (the source recursion terminates because
the taxonomy is acyclic). -/
def visit_classes_depth_first {C : Type} (t : Taxonomy C) :
    Nat → C → Bool → List C
  | 0, _, _ => []
  | fuel + 1, root, postorder =>
      (if postorder then [] else [root]) ++
        (t.children root).flatMap
          (fun child => visit_classes_depth_first t fuel child postorder) ++
        (if postorder then [root] else [])

/-- Class `b` is a direct subclass of class `a`. -/
def childStep {C : Type} (t : Taxonomy C) (a b : C) : Prop :=
  b ∈ t.children a

/-! ## Root inference (`_find_root_class`, lines 98-106)

```python
def _find_root_class(self):
    things = set()
    for cls in self.onto.classes():
        if cls.ancestors() == {owlready.Thing, cls}:
            things.add(cls)
    if len(things) == 1:
        return first(things)
    else:
        return owlready.Thing
```

`onto.classes()` is the list of classes declared by the ontology (it
never includes `owl.Thing` itself); `cls.ancestors()` with default
arguments includes `cls`; the comparison is set equality.  `thing`
below stands for `owl.Thing`. -/

/-- Set equality of the element sets of two lists (Python compares the
ancestor set against a two-element set literal). -/
def sameSet {α : Type} [DecidableEq α] (l1 l2 : List α) : Bool :=
  l1.all (fun x => decide (x ∈ l2)) && l2.all (fun x => decide (x ∈ l1))

/-- The candidate set of `_find_root_class` (Python accumulates it in a
set; the embedding deduplicates the filtered list). -/
def rootCandidates {C : Type} [DecidableEq C] (t : Taxonomy C)
    (classes : List C) (thing : C) (fuel : Nat) : List C :=
  (classes.filter
    (fun cls => sameSet (reachList t.parents fuel true cls) [thing, cls])).dedup

def _find_root_class {C : Type} [DecidableEq C] (t : Taxonomy C)
    (classes : List C) (thing : C) (fuel : Nat) : C :=
  match rootCandidates t classes thing fuel with
  | [c] => c
  | _ => thing

/-- Two disjoint top-level classes under the universal top. -/
inductive DClass : Type
  | thing
  | animal
  | vehicle
deriving DecidableEq, Repr

def disjTaxonomy : Taxonomy DClass where
  children c :=
    match c with
    | .thing => [.animal, .vehicle]
    | .animal => []
    | .vehicle => []
  parents c :=
    match c with
    | .thing => []
    | .animal => [.thing]
    | .vehicle => [.thing]

/-! ## The lexical normalizer (`replace_symbols_with` / `owl_name`,
lines 11, 60-64 and 75-82)

```python
PATTERN_SYMBOLS = re.compile(r"[^A-Za-z\d_]")

def replace_symbols_with(name, replacement):
    replaced = PATTERN_SYMBOLS.sub(replacement, name)
    while replaced.endswith(replacement):
        replaced = replaced[:-1]
    return replaced

def owl_name(name, instance=True):
    name = unidecode.unidecode(name)
    name = name.strip()
    name = replace_symbols_with(name, "_")
    name = name.lower()
    if not instance:
        name = name.capitalize()
    return name
```

Strings are modelled as lists of Unicode code points (`List Nat`).  The
third-party `unidecode` transliteration table is a parameter of the
embedding (`unidec`, mapping one code point to a list of replacement
code points); theorems assume only its documented behaviour on the
identifier alphabet (ASCII letters, digits and underscore map to
themselves).  `replacement` is always the single character `"_"` at the
call site, so it is modelled as one code point; the `while` loop drops
one trailing character per iteration, i.e. the maximal trailing run of
the replacement character.  `str.strip()`, `str.lower()` and
`str.capitalize()` are modelled on the character ranges that can occur
at their call sites (ASCII after substitution). -/

/-- Python whitespace (the set stripped by `str.strip()`). -/
def pyIsSpace (c : Nat) : Bool :=
  decide (c ∈ [9, 10, 11, 12, 13, 28, 29, 30, 31, 32, 133, 160, 5760,
    8192, 8193, 8194, 8195, 8196, 8197, 8198, 8199, 8200, 8201, 8202,
    8232, 8233, 8239, 8287, 12288])

/-- Python's `str.strip()`. -/
def pyStrip (s : List Nat) : List Nat :=
  ((s.dropWhile pyIsSpace).reverse.dropWhile pyIsSpace).reverse

/-- A code point matched by `[A-Za-z\d_]` (the complement of
`PATTERN_SYMBOLS`, ASCII range). -/
def isWordChar (c : Nat) : Bool :=
  (decide (65 ≤ c) && decide (c ≤ 90)) ||
    (decide (97 ≤ c) && decide (c ≤ 122)) ||
    (decide (48 ≤ c) && decide (c ≤ 57)) || decide (c = 95)

/-- Python's `str.lower()` on a code point (ASCII case fold — the inputs at the
call site are ASCII after the substitution step). -/
def pyLower (c : Nat) : Nat := if 65 ≤ c ∧ c ≤ 90 then c + 32 else c

/-- The upper-casing of the first character done by
`str.capitalize()`. -/
def pyUpper (c : Nat) : Nat := if 97 ≤ c ∧ c ≤ 122 then c - 32 else c

/-- Python's `str.capitalize()`: first character upper-cased, rest
lower-cased. -/
def pyCapitalize (s : List Nat) : List Nat :=
  match s with
  | [] => []
  | c :: cs => pyUpper c :: cs.map pyLower

def replace_symbols_with (name : List Nat) (replacement : Nat) :
    List Nat :=
  let replaced := name.map (fun c => if isWordChar c then c else replacement)
  ((replaced.reverse.dropWhile (fun c => c == replacement))).reverse

def owl_name (unidec : Nat → List Nat) (name : List Nat)
    (instanceFlag : Bool := true) : List Nat :=
  let n1 := name.flatMap unidec
  let n2 := pyStrip n1
  let n3 := replace_symbols_with n2 95
  let n4 := n3.map pyLower
  if instanceFlag then n4 else pyCapitalize n4

/-- The character class produced by the lower-casing step: lower-case
letters, digits and underscore. -/
def LWChar (c : Nat) : Prop :=
  (97 ≤ c ∧ c ≤ 122) ∨ (48 ≤ c ∧ c ≤ 57) ∨ c = 95

/-! ## The graph mutation engine (`KnowledgeGraph`, lines 85-165)

The graph state: owlready2 individuals are identified by their name
(unique in a namespace; `add_instance` dedups by name), so an instance
is its name, a list of code points.  `props i p` is the value list of
property `p` on instance `i`; `propNames` are the properties the
ontology declares (owlready2's reflective property access enumerates
them); `is_instance_of` is the instance's direct-class list.  A property
value is an instance reference, a literal, or a class. -/
inductive OValue (C : Type) where
  | inst : List Nat → OValue C
  | lit : List Nat → OValue C
  | ocls : C → OValue C
deriving DecidableEq

structure Graph (C : Type) where
  insts : List (List Nat)
  is_instance_of : List Nat → List C
  propNames : List (List Nat)
  props : List Nat → List Nat → List (OValue C)

/-- owlready2's `cls.instances()`: the individuals having some type
that is `cls` or a descendant of `cls`. -/
def instances {C : Type} [DecidableEq C] (t : Taxonomy C) (fuel : Nat)
    (g : Graph C) (cls : C) : List (List Nat) :=
  g.insts.filter (fun i => (g.is_instance_of i).any
    (fun c => decide (c ∈ reachList t.children fuel true cls)))

/-- Method `add_property` (lines 108-115): append the value to the property's
value list only if it is not already present. -/
def add_property {C : Type} [DecidableEq C] (g : Graph C) (i : List Nat)
    (property : List Nat) (value : OValue C) : Graph C :=
  if value ∈ g.props i property then g
  else { g with props := fun j p =>
    if j = i ∧ p = property then g.props j p ++ [value] else g.props j p }

/-- Graph-level `set_class_of_instance`: the list-level core applied to
the instance's direct-class list. -/
def set_class_of_instance {C : Type} [DecidableEq C] (t : Taxonomy C)
    (fuel : Nat) (g : Graph C) (i : List Nat) (cls : C) : Graph C :=
  { g with is_instance_of := fun j =>
    if j = i then set_class_of_instance_list t fuel (g.is_instance_of i) cls
    else g.is_instance_of j }

/-- The code points of `"fancyName"`, the display-name property. -/
def fancyNameKey : List Nat := [102, 97, 110, 99, 121, 78, 97, 109, 101]

/-- Method `add_instance` (lines 136-151).  `self.onto.fancyName is not None`
(the ontology declares the display-name property) is modelled as
membership of `fancyName` in the declared property names; the `KeyError`
is an `Except.error` carrying the canonical name. -/
def add_instance {C : Type} [DecidableEq C] (t : Taxonomy C) (fuel : Nat)
    (unidec : Nat → List Nat) (g : Graph C) (cls : C) (name : List Nat)
    (add_to_class_if_existing : Bool := true) :
    Except (List Nat) (Graph C × List Nat) :=
  let fancy_name := name
  let name := owl_name unidec name
  match ((instances t fuel g cls).filter
      (fun i => decide (i = name))).head? with
  | some i =>
      if add_to_class_if_existing then
        let g1 := set_class_of_instance t fuel g i cls
        let g2 := if fancyNameKey ∈ g1.propNames ∧ name ≠ fancy_name then
            add_property g1 i fancyNameKey (OValue.lit fancy_name)
          else g1
        Except.ok (g2, i)
      else Except.error name
  | none =>
      let g1 : Graph C := { g with
        insts := g.insts ++ [name],
        is_instance_of := fun j =>
          if j = name then [cls] else g.is_instance_of j }
      let g2 := if fancyNameKey ∈ g1.propNames ∧ name ≠ fancy_name then
          add_property g1 name fancyNameKey (OValue.lit fancy_name)
        else g1
      Except.ok (g2, name)

/-- owlready2's `instance.get_properties()`: the declared properties
carrying at least one value on the instance. -/
def get_properties {C : Type} (g : Graph C) (i : List Nat) :
    List (List Nat) :=
  g.propNames.filter (fun p => !(g.props i p).isEmpty)

/-- owlready2's `destroy_entity`: removes the individual and every
relation involving it — its own property values and any reference to it
from other individuals' properties. -/
def destroy_entity {C : Type} [DecidableEq C] (g : Graph C)
    (i : List Nat) : Graph C :=
  { insts := g.insts.filter (fun j => decide (j ≠ i)),
    is_instance_of := fun j => if j = i then [] else g.is_instance_of j,
    propNames := g.propNames,
    props := fun j p => if j = i then []
      else (g.props j p).filter (fun v => decide (v ≠ OValue.inst i)) }

/-- Method `merge_instances` (lines 153-165). -/
def merge_instances {C : Type} [DecidableEq C] (t : Taxonomy C)
    (fuel : Nat) (g : Graph C) (instance1 instance2 : List Nat)
    (cls : C) : Bool × Graph C :=
  let all_instances := instances t fuel g cls
  if instance1 ∈ all_instances then
    if instance2 ∈ all_instances then
      let g1 := (get_properties g instance2).foldl
        (fun gAcc p =>
          if p ≠ fancyNameKey then
            (gAcc.props instance2 p).foldl
              (fun gAcc2 value => add_property gAcc2 instance1 p value)
              gAcc
          else gAcc)
        g
      (true, destroy_entity g1 instance2)
    else (false, g)
  else (false, g)

/-! ## The Tweety scenario (claim C3) -/

/-- The empty graph over the chain taxonomy; the ontology declares the
display-name property. -/
def g0Bird : Graph AClass :=
  { insts := [],
    is_instance_of := fun _ => [],
    propNames := [fancyNameKey],
    props := fun _ _ => [] }

/-- The raw name `"Tweety"` as code points. -/
def tweetyRaw : List Nat := [84, 119, 101, 101, 116, 121]

/-- The canonical name `"tweety"`. -/
def tweetyName : List Nat := owl_name (fun c => [c]) tweetyRaw

/-- The graph after `add_instance(Bird, "Tweety")`. -/
def tweetyG1 : Graph AClass :=
  match add_instance chainTaxonomy 5 (fun c => [c]) g0Bird AClass.bird
      tweetyRaw true with
  | Except.ok (g, _) => g
  | Except.error _ => g0Bird

/-- The graph after reclassifying Tweety to Penguin. -/
def tweetyG2 : Graph AClass :=
  set_class_of_instance chainTaxonomy 5 tweetyG1 tweetyName AClass.penguin

/-- The graph after then reclassifying Tweety to Animal. -/
def tweetyG3 : Graph AClass :=
  set_class_of_instance chainTaxonomy 5 tweetyG2 tweetyName AClass.animal

/-- The outer merge loop: the body of the fold over the absorbed
instance's properties. -/
def mergeStep {C : Type} [DecidableEq C] (i1 i2 : List Nat)
    (gAcc : Graph C) (p : List Nat) : Graph C :=
  if p ≠ fancyNameKey then
    (gAcc.props i2 p).foldl
      (fun gAcc2 value => add_property gAcc2 i1 p value) gAcc
  else gAcc

/-- A one-class taxonomy for the merge counterexample. -/
def unitTaxonomy : Taxonomy Unit where
  children _ := []
  parents _ := []

/-- Two instances `"a"` and `"b"`; `"b"` carries property `"l"` whose
single value is a reference to `"b"` itself. -/
def cexGraph : Graph Unit :=
  { insts := [[97], [98]],
    is_instance_of := fun _ => [()],
    propNames := [[108]],
    props := fun j p =>
      if j = [98] ∧ p = [108] then [OValue.inst [98]] else [] }

/-- The drain phase over `a` finds exactly the elements shared with the
other side's visited set. -/
theorem overlapDrainA_eq_true_iff {α : Type} [DecidableEq α] :
    ∀ (as metB : List α),
      (overlapDrainA as metB = true ↔ ∃ x, x ∈ as ∧ x ∈ metB)
  | [], metB => by simp [overlapDrainA]
  | a :: as, metB => by
      simp only [overlapDrainA]
      by_cases ha : a ∈ metB
      · simp only [if_pos ha, true_iff]
        exact ⟨a, List.mem_cons_self a as, ha⟩
      · rw [if_neg ha, overlapDrainA_eq_true_iff as metB]
        constructor
        · rintro ⟨x, hx1, hx2⟩
          exact ⟨x, List.mem_cons_of_mem a hx1, hx2⟩
        · rintro ⟨x, hx1, hx2⟩
          rcases List.mem_cons.mp hx1 with rfl | hx1
          · exact absurd hx2 ha
          · exact ⟨x, hx1, hx2⟩

/-- The drain phase over `b`, symmetrically. -/
theorem overlapDrainB_eq_true_iff {α : Type} [DecidableEq α] :
    ∀ (bs metA : List α),
      (overlapDrainB bs metA = true ↔ ∃ x, x ∈ bs ∧ x ∈ metA)
  | [], metA => by simp [overlapDrainB]
  | b :: bs, metA => by
      simp only [overlapDrainB]
      by_cases hb : b ∈ metA
      · simp only [if_pos hb, true_iff]
        exact ⟨b, List.mem_cons_self b bs, hb⟩
      · rw [if_neg hb, overlapDrainB_eq_true_iff bs metA]
        constructor
        · rintro ⟨x, hx1, hx2⟩
          exact ⟨x, List.mem_cons_of_mem b hx1, hx2⟩
        · rintro ⟨x, hx1, hx2⟩
          rcases List.mem_cons.mp hx1 with rfl | hx1
          · exact absurd hx2 hb
          · exact ⟨x, hx1, hx2⟩

/-- Invariant of the interleaved loop: provided the two visited sets do
not already overlap, the loop returns `true` exactly when some element
is on both sides (each side being its remaining list together with its
visited set). -/
theorem overlapGo_eq_true_iff {α : Type} [DecidableEq α] :
    ∀ (as bs metA metB : List α),
      (∀ x, x ∈ metA → x ∉ metB) →
      (overlapGo as bs metA metB = true ↔
        ∃ x, (x ∈ as ∨ x ∈ metA) ∧ (x ∈ bs ∨ x ∈ metB))
  | [], bs, metA, metB, hdisj => by
      simp only [overlapGo]
      rw [overlapDrainB_eq_true_iff bs metA]
      constructor
      · rintro ⟨x, hx1, hx2⟩
        exact ⟨x, Or.inr hx2, Or.inl hx1⟩
      · rintro ⟨x, hx1, hx2⟩
        rcases hx1 with hx1 | hx1
        · cases hx1
        · rcases hx2 with hx2 | hx2
          · exact ⟨x, hx2, hx1⟩
          · exact absurd hx2 (hdisj x hx1)
  | a :: as, [], metA, metB, hdisj => by
      simp only [overlapGo]
      rw [overlapDrainA_eq_true_iff (a :: as) metB]
      constructor
      · rintro ⟨x, hx1, hx2⟩
        exact ⟨x, Or.inl hx1, Or.inr hx2⟩
      · rintro ⟨x, hx1, hx2⟩
        rcases hx2 with hx2 | hx2
        · cases hx2
        · rcases hx1 with hx1 | hx1
          · exact ⟨x, hx1, hx2⟩
          · exact absurd hx2 (hdisj x hx1)
  | a :: as, b :: bs, metA, metB, hdisj => by
      simp only [overlapGo]
      by_cases ha : a ∈ metB
      · simp only [if_pos ha, true_iff]
        exact ⟨a, Or.inl (List.mem_cons_self a as), Or.inr ha⟩
      · rw [if_neg ha]
        by_cases hb : b ∈ a :: metA
        · simp only [if_pos hb, true_iff]
          rcases List.mem_cons.mp hb with rfl | hb
          · exact ⟨b, Or.inl (List.mem_cons_self b as),
              Or.inl (List.mem_cons_self b bs)⟩
          · exact ⟨b, Or.inr hb, Or.inl (List.mem_cons_self b bs)⟩
        · rw [if_neg hb]
          have hba : b ≠ a := fun h => hb (h ▸ List.mem_cons_self a metA)
          have hbA : b ∉ metA := fun h => hb (List.mem_cons_of_mem a h)
          have hdisj' : ∀ x, x ∈ a :: metA → x ∉ b :: metB := by
            intro x hx hmem
            rcases List.mem_cons.mp hx with rfl | hx
            · rcases List.mem_cons.mp hmem with h | h
              · exact hba h.symm
              · exact ha h
            · rcases List.mem_cons.mp hmem with rfl | h
              · exact hbA hx
              · exact hdisj x hx h
          rw [overlapGo_eq_true_iff as bs (a :: metA) (b :: metB) hdisj']
          constructor
          · rintro ⟨x, hx1, hx2⟩
            refine ⟨x, ?_, ?_⟩
            · rcases hx1 with hx1 | hx1
              · exact Or.inl (List.mem_cons_of_mem a hx1)
              · rcases List.mem_cons.mp hx1 with rfl | hx1
                · exact Or.inl (List.mem_cons_self x as)
                · exact Or.inr hx1
            · rcases hx2 with hx2 | hx2
              · exact Or.inl (List.mem_cons_of_mem b hx2)
              · rcases List.mem_cons.mp hx2 with rfl | hx2
                · exact Or.inl (List.mem_cons_self x bs)
                · exact Or.inr hx2
          · rintro ⟨x, hx1, hx2⟩
            refine ⟨x, ?_, ?_⟩
            · rcases hx1 with hx1 | hx1
              · rcases List.mem_cons.mp hx1 with rfl | hx1
                · exact Or.inr (List.mem_cons_self x metA)
                · exact Or.inl hx1
              · exact Or.inr (List.mem_cons_of_mem a hx1)
            · rcases hx2 with hx2 | hx2
              · rcases List.mem_cons.mp hx2 with rfl | hx2
                · exact Or.inr (List.mem_cons_self x metB)
                · exact Or.inl hx2
              · exact Or.inr (List.mem_cons_of_mem b hx2)

/-- Correctness of `overlap`: it decides the non-emptiness of the
intersection. -/
theorem overlap_eq_true_iff {α : Type} [DecidableEq α] (a b : List α) :
    overlap a b = true ↔ ∃ x, x ∈ a ∧ x ∈ b := by
  rw [overlap, overlapGo_eq_true_iff a b [] [] (by intro x h; cases h)]
  simp only [List.not_mem_nil, or_false]

/-- Running `overlap` against a singleton is membership. -/
theorem overlap_singleton_left {α : Type} [DecidableEq α] (c : α) (l : List α) :
    overlap [c] l = true ↔ c ∈ l := by
  rw [overlap_eq_true_iff]
  constructor
  · rintro ⟨x, hx, hl⟩
    rcases List.mem_singleton.mp hx with rfl
    exact hl
  · intro h; exact ⟨c, List.mem_singleton_self c, h⟩

/-- C4: `overlap(A, B)` is true exactly when the element sets of the two
sequences intersect, i.e. when the sequences share at least one equal
element. -/
theorem claim_c4_overlap_correct {α : Type} [DecidableEq α] (a b : List α) :
    overlap a b = true ↔ ∃ x, x ∈ a ∧ x ∈ b :=
  overlap_eq_true_iff a b

theorem pathLe_refl {C : Type} (step : C → List C) (n : Nat) (a : C) :
    pathLe step n a a := by
  cases n with
  | zero => rfl
  | succ n => exact Or.inl rfl

theorem pathLe_mono {C : Type} (step : C → List C) :
    ∀ (n : Nat) (a b : C), pathLe step n a b → pathLe step (n + 1) a b
  | 0, a, b, h => Or.inl h
  | n + 1, a, b, h => by
      rcases h with h | ⟨y, hy, hp⟩
      · exact Or.inl h
      · exact Or.inr ⟨y, hy, pathLe_mono step n y b hp⟩

/-- Membership in the self-including reachability list is a bounded
path. -/
theorem mem_reachList_true_iff {C : Type} (step : C → List C) :
    ∀ (n : Nat) (c x : C), x ∈ reachList step n true c ↔ pathLe step n c x
  | 0, c, x => by simp [reachList, pathLe]
  | n + 1, c, x => by
      show x ∈ [c] ++ (step c).flatMap (fun y => reachList step n true y) ↔ _
      simp only [List.mem_append, List.mem_singleton, List.mem_flatMap,
        pathLe]
      constructor
      · rintro (h | ⟨y, hy, hx⟩)
        · exact Or.inl h
        · exact Or.inr ⟨y, hy, (mem_reachList_true_iff step n y x).mp hx⟩
      · rintro (h | ⟨y, hy, hx⟩)
        · exact Or.inl h
        · exact Or.inr ⟨y, hy, (mem_reachList_true_iff step n y x).mpr hx⟩

/-- Membership in the self-excluding reachability list: a first edge
followed by a bounded path. -/
theorem mem_reachList_false_iff {C : Type} (step : C → List C)
    (n : Nat) (c x : C) :
    x ∈ reachList step (n + 1) false c ↔
      ∃ y ∈ step c, pathLe step n y x := by
  show x ∈ [] ++ (step c).flatMap (fun y => reachList step n true y) ↔ _
  simp only [List.nil_append, List.mem_flatMap]
  constructor
  · rintro ⟨y, hy, hx⟩
    exact ⟨y, hy, (mem_reachList_true_iff step n y x).mp hx⟩
  · rintro ⟨y, hy, hx⟩
    exact ⟨y, hy, (mem_reachList_true_iff step n y x).mpr hx⟩

theorem reachList_zero_false {C : Type} (step : C → List C) (c : C) :
    reachList step 0 false c = [] := rfl

/-- The self-excluding reachability list is contained in the
self-including one. -/
theorem mem_reachList_false_mono {C : Type} (step : C → List C)
    (n : Nat) (c x : C) (h : x ∈ reachList step n false c) :
    x ∈ reachList step n true c := by
  cases n with
  | zero => simp [reachList] at h
  | succ n =>
      rw [show reachList step (n + 1) false c =
        [] ++ (step c).flatMap (fun y => reachList step n true y) from rfl,
        List.nil_append] at h
      show x ∈ [c] ++ (step c).flatMap (fun y => reachList step n true y)
      exact List.mem_append_right _ h

/-- A bounded path only decreases the rank. -/
theorem pathLe_rank_le {C : Type} {step : C → List C} {rank : C → Nat}
    (hr : RankedStep step rank) :
    ∀ (n : Nat) (a b : C), pathLe step n a b → rank b ≤ rank a
  | 0, a, b, h => h ▸ Nat.le_refl _
  | n + 1, a, b, h => by
      rcases h with h | ⟨y, hy, hp⟩
      · exact h ▸ Nat.le_refl _
      · exact Nat.le_of_lt (Nat.lt_of_le_of_lt
          (pathLe_rank_le hr n y b hp) (hr a y hy))

/-- Anything on the strict (self-excluding) reachability list has
strictly smaller rank; in particular a node is never its own strict
descendant. -/
theorem rank_lt_of_mem_reachList_false {C : Type} {step : C → List C}
    {rank : C → Nat} (hr : RankedStep step rank)
    (n : Nat) (c x : C) (h : x ∈ reachList step n false c) :
    rank x < rank c := by
  cases n with
  | zero => simp [reachList] at h
  | succ n =>
      rcases (mem_reachList_false_iff step n c x).mp h with ⟨y, hy, hp⟩
      exact Nat.lt_of_le_of_lt (pathLe_rank_le hr n y x hp) (hr c y hy)

/-- Bounded paths decomposed at the last edge instead of the first. -/
theorem pathLe_snoc_iff {C : Type} (step : C → List C) :
    ∀ (n : Nat) (a b : C),
      pathLe step (n + 1) a b ↔
        (b = a ∨ ∃ z, pathLe step n a z ∧ b ∈ step z)
  | 0, a, b => by
      simp only [pathLe]
      constructor
      · rintro (h | ⟨y, hy, rfl⟩)
        · exact Or.inl h
        · exact Or.inr ⟨a, rfl, hy⟩
      · rintro (h | ⟨z, rfl, hz⟩)
        · exact Or.inl h
        · exact Or.inr ⟨b, hz, rfl⟩
  | n + 1, a, b => by
      constructor
      · rintro (h | ⟨y, hy, hp⟩)
        · exact Or.inl h
        · rcases (pathLe_snoc_iff step n y b).mp hp with h | ⟨z, hz, hb⟩
          · exact Or.inr ⟨a, pathLe_refl step (n + 1) a,
              h ▸ hy⟩
          · exact Or.inr ⟨z, Or.inr ⟨y, hy, hz⟩, hb⟩
      · rintro (h | ⟨z, hz, hb⟩)
        · exact Or.inl h
        · rcases hz with h | ⟨y, hy, hp⟩
          · subst h
            exact Or.inr ⟨b, hb, pathLe_refl step (n + 1) b⟩
          · exact Or.inr ⟨y, hy, (pathLe_snoc_iff step n y b).mpr
              (Or.inr ⟨z, hp, hb⟩)⟩

/-- In a coherent taxonomy a bounded child-path downward is a bounded
parent-path upward, with the same bound. -/
theorem pathLe_children_iff_parents {C : Type} {t : Taxonomy C}
    (hco : Coherent t) :
    ∀ (n : Nat) (c x : C),
      pathLe t.children n c x ↔ pathLe t.parents n x c
  | 0, c, x => by simp only [pathLe]; exact eq_comm
  | n + 1, c, x => by
      rw [pathLe_snoc_iff t.parents n x c]
      simp only [pathLe]
      constructor
      · rintro (h | ⟨y, hy, hp⟩)
        · exact Or.inl h.symm
        · exact Or.inr ⟨y, (pathLe_children_iff_parents hco n y x).mp hp,
            (hco y c).mp hy⟩
      · rintro (h | ⟨z, hz, hc⟩)
        · exact Or.inl h.symm
        · exact Or.inr ⟨z, (hco z c).mpr hc,
            (pathLe_children_iff_parents hco n z x).mpr hz⟩

/-- A nonempty bounded path decomposed at the first edge equals one
decomposed at the last edge. -/
theorem exists_fst_iff_exists_snoc {C : Type} (step : C → List C) :
    ∀ (n : Nat) (c x : C),
      (∃ y ∈ step c, pathLe step n y x) ↔
        ∃ z, pathLe step n c z ∧ x ∈ step z
  | 0, c, x => by
      simp only [pathLe]
      constructor
      · rintro ⟨y, hy, rfl⟩; exact ⟨c, rfl, hy⟩
      · rintro ⟨z, rfl, hz⟩; exact ⟨x, hz, rfl⟩
  | n + 1, c, x => by
      simp only [pathLe]
      constructor
      · rintro ⟨y, hy, h | ⟨w, hw, hp⟩⟩
        · exact ⟨c, Or.inl rfl, h ▸ hy⟩
        · rcases (exists_fst_iff_exists_snoc step n y x).mp
            ⟨w, hw, hp⟩ with ⟨z, hz, hx⟩
          exact ⟨z, Or.inr ⟨y, hy, hz⟩, hx⟩
      · rintro ⟨z, h | ⟨y, hy, hp⟩, hx⟩
        · exact ⟨x, h ▸ hx, Or.inl rfl⟩
        · rcases (exists_fst_iff_exists_snoc step n y x).mpr
            ⟨z, hp, hx⟩ with ⟨w, hw, hp'⟩
          exact ⟨y, hy, Or.inr ⟨w, hw, hp'⟩⟩

/-- Duality of the two traversals in a coherent taxonomy: `x` is on
`c`'s descendant list exactly when `c` is on `x`'s ancestor list, with
the same fuel and the same `includeSelf` flag. -/
theorem mem_descendants_iff_mem_ancestors {C : Type} {t : Taxonomy C}
    (hco : Coherent t) (n : Nat) (i : Bool) (c x : C) :
    x ∈ reachList t.children n i c ↔ c ∈ reachList t.parents n i x := by
  cases i with
  | true =>
      rw [mem_reachList_true_iff, mem_reachList_true_iff]
      exact pathLe_children_iff_parents hco n c x
  | false =>
      cases n with
      | zero => simp [reachList]
      | succ n =>
          rw [mem_reachList_false_iff, mem_reachList_false_iff,
            exists_fst_iff_exists_snoc]
          constructor
          · rintro ⟨z, hz, hx⟩
            exact ⟨z, (hco x z).mp hx,
              (pathLe_children_iff_parents hco n c z).mp hz⟩
          · rintro ⟨y, hy, hp⟩
            exact ⟨y, (pathLe_children_iff_parents hco n c y).mpr hp,
              (hco x y).mpr hy⟩

theorem subtype_eq_true_iff {C : Type} [DecidableEq C] (t : Taxonomy C)
    (fuel : Nat) (cls1 cls2 : C) (strict : Bool) :
    subtype t fuel cls1 cls2 strict = true ↔
      cls1 ∈ reachList t.children fuel (!strict) cls2 :=
  overlap_singleton_left cls1 _

theorem supertype_eq_true_iff {C : Type} [DecidableEq C] (t : Taxonomy C)
    (fuel : Nat) (cls1 cls2 : C) (strict : Bool) :
    supertype t fuel cls1 cls2 strict = true ↔
      cls1 ∈ reachList t.parents fuel (!strict) cls2 :=
  overlap_singleton_left cls1 _

/-- C5: for every class `c` of a taxonomy, `subtype(c, c, strict=False)`
is true and `subtype(c, c, strict=True)` is false (the latter provided
the taxonomy is acyclic, witnessed by a rank function on the subclass
relation), and for all classes `a`, `b` and every strict flag `s`,
`subtype(a, b, s)` coincides with `supertype(b, a, s)` (provided the
child and parent adjacency maps are coherent).  The fuel bound of the
embedded traversal is arbitrary. -/
theorem claim_c5_subtype_supertype {C : Type} [DecidableEq C]
    (t : Taxonomy C) (rank : C → Nat) (fuel : Nat)
    (hco : Coherent t) (hr : RankedStep t.children rank)
    (a b c : C) (s : Bool) :
    subtype t fuel c c false = true ∧
      subtype t fuel c c true = false ∧
      subtype t fuel a b s = supertype t fuel b a s := by
  refine ⟨?_, ?_, ?_⟩
  · rw [subtype_eq_true_iff]
    rw [show (!false) = true from rfl, mem_reachList_true_iff]
    exact pathLe_refl t.children fuel c
  · rw [show (false : Bool) = decide False from rfl]
    rw [Bool.eq_iff_iff, decide_eq_true_iff, subtype_eq_true_iff]
    rw [show (!true) = false from rfl]
    constructor
    · intro h
      exact absurd (rank_lt_of_mem_reachList_false hr fuel c c h)
        (Nat.lt_irrefl _)
    · intro h; cases h
  · rw [Bool.eq_iff_iff, subtype_eq_true_iff, supertype_eq_true_iff]
    exact mem_descendants_iff_mem_ancestors hco fuel (!s) b a

theorem chainTaxonomy_coherent : Coherent chainTaxonomy := by
  intro a b; cases a <;> cases b <;> decide

theorem chainTaxonomy_ranked : RankedStep chainTaxonomy.children chainRank := by
  intro a b; cases a <;> cases b <;> decide

/-- Witness for C5 on the concrete chain taxonomy. -/
theorem claim_c5_subtype_supertype_witness :
    subtype chainTaxonomy 4 AClass.bird AClass.bird false = true ∧
      subtype chainTaxonomy 4 AClass.bird AClass.bird true = false ∧
      subtype chainTaxonomy 4 AClass.penguin AClass.animal true =
        supertype chainTaxonomy 4 AClass.animal AClass.penguin true :=
  claim_c5_subtype_supertype chainTaxonomy chainRank 4
    chainTaxonomy_coherent chainTaxonomy_ranked
    AClass.penguin AClass.animal AClass.bird true

/-- In a coherent ranked taxonomy, `supertype a b strict=True` implies
that `b` is a strict descendant of `a`, hence of smaller rank. -/
theorem rank_lt_of_supertype_strict {C : Type} [DecidableEq C]
    {t : Taxonomy C} {rank : C → Nat} (hco : Coherent t)
    (hr : RankedStep t.children rank) {fuel : Nat} {a b : C}
    (h : supertype t fuel a b true = true) : rank b < rank a := by
  rw [supertype_eq_true_iff] at h
  rw [show (!true) = false from rfl] at h
  rw [← mem_descendants_iff_mem_ancestors hco] at h
  exact rank_lt_of_mem_reachList_false hr fuel a b h

/-- In a coherent ranked taxonomy, `subtype a b strict=False` implies
`rank a ≤ rank b`. -/
theorem rank_le_of_subtype {C : Type} [DecidableEq C]
    {t : Taxonomy C} {rank : C → Nat} (hr : RankedStep t.children rank)
    {fuel : Nat} {a b : C}
    (h : subtype t fuel a b false = true) : rank a ≤ rank b := by
  rw [subtype_eq_true_iff] at h
  rw [show (!false) = true from rfl, mem_reachList_true_iff] at h
  exact pathLe_rank_le hr fuel b a h

/-- Having `supertype a cls strict=True` together with `subtype a cls
strict=False` is impossible in a coherent ranked taxonomy. -/
theorem not_supertype_strict_of_subtype {C : Type} [DecidableEq C]
    {t : Taxonomy C} {rank : C → Nat} (hco : Coherent t)
    (hr : RankedStep t.children rank) {fuel : Nat} {a cls : C}
    (h : subtype t fuel a cls false = true) :
    supertype t fuel a cls true = false := by
  by_contra hne
  have hsup : supertype t fuel a cls true = true :=
    eq_true_of_ne_false fun h' => hne h'
  exact absurd
    (Nat.lt_of_lt_of_le (rank_lt_of_supertype_strict hco hr hsup)
      (rank_le_of_subtype hr h))
    (Nat.lt_irrefl _)

/-- C1: in a coherent, acyclic taxonomy, if an instance's direct-class
list satisfies the most-specific-class invariant and is non-empty, then
after `set_class_of_instance` with any class `cls` it still satisfies
the invariant and is non-empty. -/
theorem claim_c1_reclassify_invariant {C : Type} [DecidableEq C]
    (t : Taxonomy C) (rank : C → Nat) (fuel : Nat)
    (hco : Coherent t) (hr : RankedStep t.children rank)
    (l : List C) (cls : C)
    (hinv : MostSpecificInv t fuel l) (hne : l ≠ []) :
    MostSpecificInv t fuel (set_class_of_instance_list t fuel l cls) ∧
      set_class_of_instance_list t fuel l cls ≠ [] := by
  unfold set_class_of_instance_list
  simp only []
  set l1 := if (l.filter (fun c => supertype t fuel c cls true)).length > 0
    then l.filter (fun c => !(supertype t fuel c cls true)) else l with hl1
  have hl1sub : ∀ a, a ∈ l1 → a ∈ l := by
    intro a ha
    rw [hl1] at ha
    by_cases hg : (l.filter (fun c => supertype t fuel c cls true)).length > 0
    · rw [if_pos hg] at ha
      exact List.mem_of_mem_filter ha
    · rwa [if_neg hg] at ha
  have hl1notsup : ∀ a, a ∈ l1 → supertype t fuel a cls true = false := by
    intro a ha
    rw [hl1] at ha
    by_cases hg : (l.filter (fun c => supertype t fuel c cls true)).length > 0
    · rw [if_pos hg] at ha
      have := List.of_mem_filter ha
      simpa using this
    · rw [if_neg hg] at ha
      by_contra hne'
      have hsup : supertype t fuel a cls true = true :=
        eq_true_of_ne_false fun h' => hne' h'
      have : a ∈ l.filter (fun c => supertype t fuel c cls true) :=
        List.mem_filter.mpr ⟨ha, hsup⟩
      have : 0 < (l.filter (fun c => supertype t fuel c cls true)).length :=
        List.length_pos.mpr (List.ne_nil_of_mem this)
      exact hg this
  by_cases hs : (l.filter (fun c => subtype t fuel c cls false)).length = 0
  · -- too_specific empty: cls is appended
    rw [if_pos hs]
    have hnosub : ∀ a ∈ l, subtype t fuel a cls false = false := by
      intro a ha
      by_contra hne'
      have hsub : subtype t fuel a cls false = true :=
        eq_true_of_ne_false fun h' => hne' h'
      have : a ∈ l.filter (fun c => subtype t fuel c cls false) :=
        List.mem_filter.mpr ⟨ha, hsub⟩
      rw [List.length_eq_zero] at hs
      rw [hs] at this
      cases this
    constructor
    · intro a ha b hb
      rcases List.mem_append.mp ha with ha | ha
      · rcases List.mem_append.mp hb with hb | hb
        · exact hinv a (hl1sub a ha) b (hl1sub b hb)
        · rcases List.mem_singleton.mp hb with rfl
          exact hl1notsup a ha
      · have hacls : a = cls := List.mem_singleton.mp ha
        rw [hacls]
        rcases List.mem_append.mp hb with hb | hb
        · -- cls strict ancestor of an old member b would make b a strict
          -- descendant of cls, i.e. a too-specific member — excluded
          by_contra hne'
          have hsup : supertype t fuel cls b true = true :=
            eq_true_of_ne_false fun h' => hne' h'
          rw [supertype_eq_true_iff,
            show (!true) = false from rfl,
            ← mem_descendants_iff_mem_ancestors hco] at hsup
          have hbsub : subtype t fuel b cls false = true := by
            rw [subtype_eq_true_iff, show (!false) = true from rfl]
            exact mem_reachList_false_mono t.children fuel cls b hsup
          have := hnosub b (hl1sub b hb)
          rw [hbsub] at this
          cases this
        · have hbcls : b = cls := List.mem_singleton.mp hb
          rw [hbcls]
          -- cls is not its own strict ancestor in an acyclic taxonomy
          by_contra hne'
          have hsup : supertype t fuel cls cls true = true :=
            eq_true_of_ne_false fun h' => hne' h'
          rw [supertype_eq_true_iff,
            show (!true) = false from rfl,
            ← mem_descendants_iff_mem_ancestors hco] at hsup
          exact absurd (rank_lt_of_mem_reachList_false hr fuel cls cls hsup)
            (Nat.lt_irrefl _)
    · exact List.append_ne_nil_of_right_ne_nil l1 (by simp)
  · -- too_specific non-empty: cls is not appended
    rw [if_neg hs]
    have hex : ∃ c0 ∈ l, subtype t fuel c0 cls false = true := by
      have : l.filter (fun c => subtype t fuel c cls false) ≠ [] := by
        intro h
        rw [h] at hs
        exact hs rfl
      rcases List.exists_mem_of_ne_nil _ this with ⟨c0, hc0⟩
      exact ⟨c0, List.mem_of_mem_filter hc0, by
        have := List.of_mem_filter hc0
        simpa using this⟩
    constructor
    · intro a ha b hb
      exact hinv a (hl1sub a ha) b (hl1sub b hb)
    · -- a too-specific member is never too generic, so it survives
      rcases hex with ⟨c0, hc0l, hc0⟩
      have hc0keep : c0 ∈ l1 := by
        rw [hl1]
        by_cases hg : (l.filter
            (fun c => supertype t fuel c cls true)).length > 0
        · rw [if_pos hg]
          refine List.mem_filter.mpr ⟨hc0l, ?_⟩
          rw [not_supertype_strict_of_subtype hco hr hc0]
          rfl
        · rwa [if_neg hg]
      exact List.ne_nil_of_mem hc0keep

/-- Witness for C1: the chain taxonomy, an instance directly classified
as a bird, reclassified to penguin. -/
theorem claim_c1_reclassify_invariant_witness :
    MostSpecificInv chainTaxonomy 4
        (set_class_of_instance_list chainTaxonomy 4 [AClass.bird]
          AClass.penguin) ∧
      set_class_of_instance_list chainTaxonomy 4 [AClass.bird]
          AClass.penguin ≠ [] :=
  claim_c1_reclassify_invariant chainTaxonomy chainRank 4
    chainTaxonomy_coherent chainTaxonomy_ranked [AClass.bird]
    AClass.penguin
    (by intro a ha b hb; fin_cases ha <;> fin_cases hb <;> decide)
    (by decide)

/-- Splitting an occurrence inside a `flatMap`: the occurrence lies in
the image of one list element, and the surrounding output decomposes
accordingly. -/
theorem flatMap_eq_append_cons {α β : Type} (f : α → List β) :
    ∀ (l : List α) (L1 L2 : List β) (c : β),
      l.flatMap f = L1 ++ c :: L2 →
      ∃ pre y post M1 M2, l = pre ++ y :: post ∧ f y = M1 ++ c :: M2 ∧
        L1 = pre.flatMap f ++ M1 ∧ L2 = M2 ++ post.flatMap f
  | [], L1, L2, c, h => by
      exact absurd h.symm (List.append_ne_nil_of_right_ne_nil L1 (by simp))
  | x :: xs, L1, L2, c, h => by
      rw [List.flatMap_cons] at h
      rcases List.append_eq_append_iff.mp h with
        ⟨a', hL1, hb⟩ | ⟨c', hfx, hd⟩
      · rcases flatMap_eq_append_cons f xs a' L2 c hb with
          ⟨pre, y, post, M1, M2, hxs, hfy, ha', hL2⟩
        refine ⟨x :: pre, y, post, M1, M2, by simp [hxs], hfy, ?_, hL2⟩
        rw [hL1, ha', List.flatMap_cons, List.append_assoc]
      · cases c' with
        | nil =>
            rw [List.append_nil] at hfx
            simp only [List.nil_append] at hd
            rcases flatMap_eq_append_cons f xs [] L2 c hd.symm with
              ⟨pre, y, post, M1, M2, hxs, hfy, hnil, hL2⟩
            have hpre : pre.flatMap f = [] :=
              (List.append_eq_nil.mp hnil.symm).1
            have hM1 : M1 = [] :=
              (List.append_eq_nil.mp hnil.symm).2
            refine ⟨x :: pre, y, post, M1, M2, by simp [hxs], hfy, ?_, hL2⟩
            rw [List.flatMap_cons, hpre, hM1, List.append_nil,
              List.append_nil, hfx]
        | cons c0 M2' =>
            have hc0 : c0 = c ∧ L2 = M2' ++ xs.flatMap f := by
              have := hd
              rw [List.cons_append] at this
              exact ⟨(List.cons.injEq _ _ _ _ ▸ this).1.symm,
                (List.cons.injEq _ _ _ _ ▸ this).2⟩
            rcases hc0 with ⟨rfl, hL2⟩
            exact ⟨[], x, xs, L1, M2', rfl, hfx, by simp, hL2⟩

/-- Completeness of the traversal: with enough fuel (any bound above
the rank of the root in an acyclic taxonomy) every class reachable from
the root through subclass edges is yielded, in either order mode. -/
theorem mem_visit_of_reachable {C : Type} {t : Taxonomy C}
    {rank : C → Nat} (hr : RankedStep t.children rank) :
    ∀ (fuel : Nat) (root d : C) (post : Bool),
      rank root < fuel →
      Relation.ReflTransGen (childStep t) root d →
      d ∈ visit_classes_depth_first t fuel root post
  | 0, root, d, post, hf, _ => absurd hf (Nat.not_lt_zero _)
  | fuel + 1, root, d, post, hf, hreach => by
      rcases Relation.ReflTransGen.cases_head hreach with rfl | ⟨z, hz, hzd⟩
      · show root ∈ (if post then [] else [root]) ++ _ ++
          (if post then [root] else [])
        cases post
        · exact List.mem_append_left _ (List.mem_append_left _ (by simp))
        · exact List.mem_append_right _ (by simp)
      · have hz' : z ∈ t.children root := hz
        have hrankz : rank z < fuel :=
          Nat.lt_of_lt_of_le (hr root z hz') (Nat.lt_succ_iff.mp hf)
        have hmem : d ∈ visit_classes_depth_first t fuel z post :=
          mem_visit_of_reachable hr fuel z d post hrankz hzd
        refine List.mem_append_left _ (List.mem_append_right _ ?_)
        exact List.mem_flatMap.mpr ⟨z, hz', hmem⟩

/-- Postorder ordering: wherever a class `c` is yielded, every strict
descendant of `c` has already been yielded earlier. -/
theorem visit_postorder_desc_before {C : Type} {t : Taxonomy C}
    {rank : C → Nat} (hr : RankedStep t.children rank) :
    ∀ (fuel : Nat) (root : C), rank root < fuel →
      ∀ (L1 L2 : List C) (c : C),
        visit_classes_depth_first t fuel root true = L1 ++ c :: L2 →
        ∀ d, Relation.TransGen (childStep t) c d → d ∈ L1
  | 0, root, hf, _, _, _, _, _, _ => absurd hf (Nat.not_lt_zero _)
  | fuel + 1, root, hf, L1, L2, c, heq, d, hdesc => by
      rw [show visit_classes_depth_first t (fuel + 1) root true =
          (t.children root).flatMap
            (fun child => visit_classes_depth_first t fuel child true) ++
            [root] from by
        simp [visit_classes_depth_first]] at heq
      have hroot_case : c = root → L1 =
          (t.children root).flatMap
            (fun child => visit_classes_depth_first t fuel child true) →
          d ∈ L1 := by
        rintro rfl rfl
        rcases (Relation.TransGen.head'_iff).mp hdesc with ⟨z, hz, hzd⟩
        refine List.mem_flatMap.mpr ⟨z, hz, ?_⟩
        exact mem_visit_of_reachable hr fuel z d true
          (Nat.lt_of_lt_of_le (hr c z hz) (Nat.lt_succ_iff.mp hf)) hzd
      rcases List.append_eq_append_iff.mp heq with
        ⟨a', hL1, hb⟩ | ⟨c', hflat, hd⟩
      · -- [root] = a' ++ c :: L2 forces a' = [] and c = root
        cases a' with
        | nil =>
            simp only [List.nil_append] at hb
            injection hb with h1 h2
            rw [List.append_nil] at hL1
            exact hroot_case h1.symm hL1
        | cons a0 a's =>
            rw [List.cons_append] at hb
            injection hb with h1 h2
            exact absurd h2.symm
              (List.append_ne_nil_of_right_ne_nil a's (by simp))
      · cases c' with
        | nil =>
            rw [List.append_nil] at hflat
            simp only [List.nil_append] at hd
            injection hd with h1 h2
            exact hroot_case h1 hflat.symm
        | cons c0 M2 =>
            -- the occurrence of c lies inside the flatMap block
            rw [List.cons_append] at hd
            injection hd with h1 h2
            subst h1
            rcases flatMap_eq_append_cons
                (fun child => visit_classes_depth_first t fuel child true)
                (t.children root) L1 M2 c hflat with
              ⟨pre, y, post, M1, M2', hch, hvy, hL1, hM2⟩
            have hy : y ∈ t.children root := by
              rw [hch]
              exact List.mem_append_right _ (List.mem_cons_self y post)
            have hranky : rank y < fuel :=
              Nat.lt_of_lt_of_le (hr root y hy) (Nat.lt_succ_iff.mp hf)
            have hd' : d ∈ M1 :=
              visit_postorder_desc_before hr fuel y hranky M1 M2' c hvy
                d hdesc
            rw [hL1]
            exact List.mem_append_right _ hd'

/-- Preorder ordering: wherever a class `c` is yielded, every strict
descendant of `c` is yielded later. -/
theorem visit_preorder_desc_after {C : Type} {t : Taxonomy C}
    {rank : C → Nat} (hr : RankedStep t.children rank) :
    ∀ (fuel : Nat) (root : C), rank root < fuel →
      ∀ (L1 L2 : List C) (c : C),
        visit_classes_depth_first t fuel root false = L1 ++ c :: L2 →
        ∀ d, Relation.TransGen (childStep t) c d → d ∈ L2
  | 0, root, hf, _, _, _, _, _, _ => absurd hf (Nat.not_lt_zero _)
  | fuel + 1, root, hf, L1, L2, c, heq, d, hdesc => by
      rw [show visit_classes_depth_first t (fuel + 1) root false =
          root :: (t.children root).flatMap
            (fun child => visit_classes_depth_first t fuel child false) from by
        simp [visit_classes_depth_first]] at heq
      cases L1 with
      | nil =>
          simp only [List.nil_append] at heq
          injection heq with h1 h2
          rw [← h2]
          rcases (Relation.TransGen.head'_iff).mp hdesc with ⟨z, hz, hzd⟩
          have hz' : z ∈ t.children root := by rw [h1]; exact hz
          refine List.mem_flatMap.mpr ⟨z, hz', ?_⟩
          exact mem_visit_of_reachable hr fuel z d false
            (Nat.lt_of_lt_of_le (hr root z hz') (Nat.lt_succ_iff.mp hf)) hzd
      | cons l0 L1' =>
          rw [List.cons_append] at heq
          injection heq with h1 h2
          rcases flatMap_eq_append_cons
              (fun child => visit_classes_depth_first t fuel child false)
              (t.children root) L1' L2 c h2 with
            ⟨pre, y, post, M1, M2', hch, hvy, hL1, hL2⟩
          have hy : y ∈ t.children root := by
            rw [hch]
            exact List.mem_append_right _ (List.mem_cons_self y post)
          have hranky : rank y < fuel :=
            Nat.lt_of_lt_of_le (hr root y hy) (Nat.lt_succ_iff.mp hf)
          have hd' : d ∈ M2' :=
            visit_preorder_desc_after hr fuel y hranky M1 M2' c hvy d hdesc
          rw [hL2]
          exact List.mem_append_left _ hd'

/-- C6: depth-first traversal order.  In postorder mode every yielded
class is preceded by all of its strict descendants, in pre-order mode it
is followed by them (in any taxonomy whose subclass relation admits a
rank function, with fuel above the root's rank); and on the chain
Animal ⊃ Bird ⊃ Penguin the two modes yield exactly
`Penguin, Bird, Animal` and `Animal, Bird, Penguin`. -/
theorem claim_c6_depth_first_order :
    (∀ (C : Type) (t : Taxonomy C) (rank : C → Nat),
      RankedStep t.children rank →
      ∀ (fuel : Nat) (root : C), rank root < fuel →
        ∀ (L1 L2 : List C) (c : C),
          visit_classes_depth_first t fuel root true = L1 ++ c :: L2 →
          ∀ d, Relation.TransGen (childStep t) c d → d ∈ L1) ∧
    (∀ (C : Type) (t : Taxonomy C) (rank : C → Nat),
      RankedStep t.children rank →
      ∀ (fuel : Nat) (root : C), rank root < fuel →
        ∀ (L1 L2 : List C) (c : C),
          visit_classes_depth_first t fuel root false = L1 ++ c :: L2 →
          ∀ d, Relation.TransGen (childStep t) c d → d ∈ L2) ∧
    visit_classes_depth_first chainTaxonomy 5 AClass.animal true =
      [AClass.penguin, AClass.bird, AClass.animal] ∧
    visit_classes_depth_first chainTaxonomy 5 AClass.animal false =
      [AClass.animal, AClass.bird, AClass.penguin] := by
  refine ⟨?_, ?_, by decide, by decide⟩
  · intro C t rank hr fuel root hf L1 L2 c heq d hdesc
    exact visit_postorder_desc_before hr fuel root hf L1 L2 c heq d hdesc
  · intro C t rank hr fuel root hf L1 L2 c heq d hdesc
    exact visit_preorder_desc_after hr fuel root hf L1 L2 c heq d hdesc

/-- Witness exercising C6 at concrete inputs: in the postorder output
over the chain, `animal` is the last element and its strict descendant
`penguin` indeed occurs in the prefix before it. -/
theorem claim_c6_depth_first_order_witness :
    AClass.penguin ∈ [AClass.penguin, AClass.bird] :=
  claim_c6_depth_first_order.1 AClass chainTaxonomy chainRank
    chainTaxonomy_ranked 5 AClass.animal (by decide)
    [AClass.penguin, AClass.bird] [] AClass.animal (by decide)
    AClass.penguin
    (Relation.TransGen.head
      (show AClass.bird ∈ chainTaxonomy.children AClass.animal by decide)
      (Relation.TransGen.single
        (show AClass.penguin ∈ chainTaxonomy.children AClass.bird by decide)))

theorem sameSet_eq_true_iff {α : Type} [DecidableEq α] (l1 l2 : List α) :
    sameSet l1 l2 = true ↔ (∀ x, x ∈ l1 ↔ x ∈ l2) := by
  simp only [sameSet, Bool.and_eq_true, List.all_eq_true,
    decide_eq_true_eq]
  constructor
  · rintro ⟨h1, h2⟩ x
    exact ⟨fun hx => h1 x hx, fun hx => h2 x hx⟩
  · intro h
    exact ⟨fun x hx => (h x).mp hx, fun x hx => (h x).mpr hx⟩

/-- C7: `_find_root_class` keeps exactly the declared classes whose
ancestor set is `{Thing, cls}` (i.e. whose every ancestor is the
universal top or the class itself — no intermediate ancestor classes);
if that candidate set is a singleton its element is returned, in every
other case the universal top is returned — in particular with the two
disjoint top-level classes Animal and Vehicle the result is the
universal top, and on the single-rooted chain it is Animal. -/
theorem claim_c7_find_root_class :
    (∀ (C : Type) (inst : DecidableEq C) (t : Taxonomy C)
      (classes : List C) (thing c : C) (fuel : Nat),
      c ∈ rootCandidates t classes thing fuel ↔
        (c ∈ classes ∧ thing ∈ reachList t.parents fuel true c ∧
          ∀ x ∈ reachList t.parents fuel true c, x = thing ∨ x = c)) ∧
    (∀ (C : Type) (inst : DecidableEq C) (t : Taxonomy C)
      (classes : List C) (thing c : C) (fuel : Nat),
      rootCandidates t classes thing fuel = [c] →
      _find_root_class t classes thing fuel = c) ∧
    (∀ (C : Type) (inst : DecidableEq C) (t : Taxonomy C)
      (classes : List C) (thing : C) (fuel : Nat),
      (rootCandidates t classes thing fuel).length ≠ 1 →
      _find_root_class t classes thing fuel = thing) ∧
    _find_root_class disjTaxonomy [DClass.animal, DClass.vehicle]
      DClass.thing 3 = DClass.thing ∧
    _find_root_class chainTaxonomy
      [AClass.animal, AClass.bird, AClass.penguin] AClass.thing 5 =
      AClass.animal := by
  refine ⟨?_, ?_, ?_, by decide, by decide⟩
  · intro C inst t classes thing c fuel
    simp only [rootCandidates, List.mem_dedup, List.mem_filter,
      sameSet_eq_true_iff]
    constructor
    · rintro ⟨hcl, hiff⟩
      refine ⟨hcl, ?_, ?_⟩
      · exact (hiff thing).mpr (by simp)
      · intro x hx
        have := (hiff x).mp hx
        simpa using this
    · rintro ⟨hcl, hthing, hall⟩
      refine ⟨hcl, fun x => ⟨fun hx => by simpa using hall x hx, ?_⟩⟩
      intro hx
      rcases List.mem_cons.mp hx with rfl | hx
      · exact hthing
      · rcases List.mem_singleton.mp hx with rfl
        rw [mem_reachList_true_iff]
        exact pathLe_refl t.parents fuel x
  · intro C inst t classes thing c fuel h
    unfold _find_root_class
    rw [h]
  · intro C inst t classes thing fuel h
    unfold _find_root_class
    rcases hc : rootCandidates t classes thing fuel with _ | ⟨c0, _ | ⟨c1, cs⟩⟩
    · rfl
    · exact absurd (by rw [hc]; rfl) h
    · rfl

/-- Witness exercising C7's conditional parts at concrete inputs. -/
theorem claim_c7_find_root_class_witness :
    _find_root_class chainTaxonomy
        [AClass.animal, AClass.bird, AClass.penguin] AClass.thing 5 =
      AClass.animal ∧
    _find_root_class disjTaxonomy [DClass.animal, DClass.vehicle]
        DClass.thing 3 = DClass.thing :=
  ⟨claim_c7_find_root_class.2.1 AClass inferInstance chainTaxonomy
      [AClass.animal, AClass.bird, AClass.penguin] AClass.thing
      AClass.animal 5 (by decide),
    claim_c7_find_root_class.2.2.1 DClass inferInstance disjTaxonomy
      [DClass.animal, DClass.vehicle] DClass.thing 3 (by decide)⟩

theorem isWordChar_iff (c : Nat) :
    isWordChar c = true ↔
      (65 ≤ c ∧ c ≤ 90) ∨ (97 ≤ c ∧ c ≤ 122) ∨ (48 ≤ c ∧ c ≤ 57) ∨
        c = 95 := by
  simp only [isWordChar, Bool.or_eq_true, Bool.and_eq_true,
    decide_eq_true_eq]
  tauto

theorem pyIsSpace_eq_false_of_word {c : Nat}
    (h : isWordChar c = true) : pyIsSpace c = false := by
  have h' := (isWordChar_iff c).mp h
  simp only [pyIsSpace, decide_eq_false_iff_not, List.mem_cons,
    List.not_mem_nil, or_false]
  omega

theorem LWChar_word {c : Nat} (h : LWChar c) : isWordChar c = true := by
  rw [isWordChar_iff]
  rcases h with h | h | h
  · exact Or.inr (Or.inl h)
  · exact Or.inr (Or.inr (Or.inl h))
  · exact Or.inr (Or.inr (Or.inr h))

theorem LWChar_pyLower_of_word {c : Nat} (h : isWordChar c = true) :
    LWChar (pyLower c) := by
  have h' := (isWordChar_iff c).mp h
  unfold pyLower LWChar
  by_cases hc : 65 ≤ c ∧ c ≤ 90
  · rw [if_pos hc]; omega
  · rw [if_neg hc]; omega

theorem LWChar_pyLower_fix {c : Nat} (h : LWChar c) : pyLower c = c := by
  unfold pyLower
  rw [if_neg]
  unfold LWChar at h
  omega

theorem pyLower_eq_95_iff (c : Nat) : pyLower c = 95 ↔ c = 95 := by
  unfold pyLower
  by_cases hc : 65 ≤ c ∧ c ≤ 90
  · rw [if_pos hc]; omega
  · rw [if_neg hc]

theorem LWChar_pyUpper_word {c : Nat} (h : LWChar c) :
    isWordChar (pyUpper c) = true := by
  rw [isWordChar_iff]
  unfold pyUpper
  unfold LWChar at h
  by_cases hc : 97 ≤ c ∧ c ≤ 122
  · rw [if_pos hc]; omega
  · rw [if_neg hc]; omega

theorem pyUpper_eq_95_iff {c : Nat} (h : LWChar c) :
    pyUpper c = 95 ↔ c = 95 := by
  unfold pyUpper
  unfold LWChar at h
  by_cases hc : 97 ≤ c ∧ c ≤ 122
  · rw [if_pos hc]; omega
  · rw [if_neg hc]

theorem LWChar_pyLower_pyUpper {c : Nat} (h : LWChar c) :
    pyLower (pyUpper c) = c := by
  unfold pyUpper pyLower
  unfold LWChar at h
  by_cases hc : 97 ≤ c ∧ c ≤ 122
  · rw [if_pos hc, if_pos (by omega)]; omega
  · rw [if_neg hc, if_neg (by omega)]

theorem dropWhile_eq_self_of_forall {α : Type} {p : α → Bool} :
    ∀ (l : List α), (∀ c ∈ l, p c = false) → l.dropWhile p = l
  | [], _ => rfl
  | a :: l, h => by
      rw [List.dropWhile_cons, if_neg]
      rw [h a (List.mem_cons_self a l)]
      simp

theorem head?_dropWhile_false {α : Type} {p : α → Bool} :
    ∀ (l : List α) (a : α), (l.dropWhile p).head? = some a → p a = false
  | [], a, h => by cases h
  | x :: l, a, h => by
      rw [List.dropWhile_cons] at h
      by_cases hx : p x = true
      · rw [if_pos hx] at h
        exact head?_dropWhile_false l a h
      · rw [if_neg hx] at h
        injection h with h'
        rw [← h']
        exact Bool.eq_false_iff.mpr hx

theorem map_eq_self_of_forall {α : Type} {f : α → α} :
    ∀ (l : List α), (∀ c ∈ l, f c = c) → l.map f = l
  | [], _ => rfl
  | a :: l, h => by
      rw [List.map_cons, h a (List.mem_cons_self a l),
        map_eq_self_of_forall l (fun c hc => h c (List.mem_cons_of_mem a hc))]

theorem pyStrip_eq_self_of_forall {l : List Nat}
    (h : ∀ c ∈ l, pyIsSpace c = false) : pyStrip l = l := by
  unfold pyStrip
  rw [dropWhile_eq_self_of_forall l h,
    dropWhile_eq_self_of_forall l.reverse
      (fun c hc => h c (List.mem_reverse.mp hc)),
    List.reverse_reverse]

/-- Every character of the substitution output is a word character. -/
theorem mem_replace_symbols_word {s : List Nat} {r : Nat}
    (hr : isWordChar r = true) :
    ∀ c ∈ replace_symbols_with s r, isWordChar c = true := by
  intro c hc
  unfold replace_symbols_with at hc
  rw [List.mem_reverse] at hc
  have hc' : c ∈ (s.map (fun c => if isWordChar c then c else r)).reverse :=
    (List.dropWhile_sublist _).mem hc
  rw [List.mem_reverse, List.mem_map] at hc'
  rcases hc' with ⟨d, _, hd⟩
  by_cases hw : isWordChar d = true
  · rw [if_pos hw] at hd; rw [← hd]; exact hw
  · rw [if_neg hw] at hd; rw [← hd]; exact hr

/-- The substitution output never ends with the replacement
character. -/
theorem replace_symbols_last_ne {s : List Nat} {r a : Nat}
    (h : (replace_symbols_with s r).reverse.head? = some a) : a ≠ r := by
  unfold replace_symbols_with at h
  rw [List.reverse_reverse] at h
  have := head?_dropWhile_false _ a h
  intro har
  rw [har] at this
  simp at this

/-- Dropping while a predicate holds does nothing when the list does not start with a
matching element. -/
theorem dropTrailing_eq_self {l : List Nat} {r : Nat}
    (h : ∀ a, l.reverse.head? = some a → a ≠ r) :
    (l.reverse.dropWhile (fun c => c == r)).reverse = l := by
  cases hrev : l.reverse with
  | nil =>
      have : l = [] := by
        have := congrArg List.reverse hrev
        rwa [List.reverse_reverse] at this
      rw [this]
      simp
  | cons x xs =>
      rw [List.dropWhile_cons, if_neg, ← hrev, List.reverse_reverse]
      have hx : x ≠ r := h x (by rw [hrev]; rfl)
      simp [hx]

/-- The function `replace_symbols_with` is the identity on a string of word
characters that does not end with the replacement character. -/
theorem replace_symbols_eq_self {l : List Nat} {r : Nat}
    (hw : ∀ c ∈ l, isWordChar c = true)
    (hlast : ∀ a, l.reverse.head? = some a → a ≠ r) :
    replace_symbols_with l r = l := by
  unfold replace_symbols_with
  rw [map_eq_self_of_forall l (fun c hc => by rw [if_pos (hw c hc)])]
  exact dropTrailing_eq_self hlast

theorem flatMap_eq_self_of_forall {u : Nat → List Nat} :
    ∀ (l : List Nat), (∀ c ∈ l, u c = [c]) → l.flatMap u = l
  | [], _ => rfl
  | a :: l, h => by
      rw [List.flatMap_cons, h a (List.mem_cons_self a l),
        flatMap_eq_self_of_forall l
          (fun c hc => h c (List.mem_cons_of_mem a hc))]
      rfl

/-- A string of lower-case word characters not ending in an underscore
is a fixed point of the whole normalization pipeline, in either casing
mode (in class mode, after its own capitalization). -/
theorem owl_name_fixed_point (unidec : Nat → List Nat)
    (hu : ∀ c, isWordChar c = true → unidec c = [c])
    (m : List Nat) (hlw : ∀ c ∈ m, LWChar c)
    (hlast : ∀ a, m.reverse.head? = some a → a ≠ 95)
    (instanceFlag : Bool) :
    owl_name unidec (if instanceFlag then m else pyCapitalize m)
        instanceFlag =
      if instanceFlag then m else pyCapitalize m := by
  cases instanceFlag with
  | true =>
      show (replace_symbols_with (pyStrip (m.flatMap unidec)) 95).map
          pyLower = m
      rw [flatMap_eq_self_of_forall m
          (fun c hc => hu c (LWChar_word (hlw c hc))),
        pyStrip_eq_self_of_forall
          (fun c hc => pyIsSpace_eq_false_of_word (LWChar_word (hlw c hc))),
        replace_symbols_eq_self (fun c hc => LWChar_word (hlw c hc)) hlast]
      exact map_eq_self_of_forall m
        (fun c hc => LWChar_pyLower_fix (hlw c hc))
  | false =>
      show owl_name unidec (pyCapitalize m) false = pyCapitalize m
      cases m with
      | nil => rfl
      | cons c0 cs =>
          have hc0 : LWChar c0 := hlw c0 (List.mem_cons_self c0 cs)
          have hcsfix : cs.map pyLower = cs :=
            map_eq_self_of_forall cs (fun c hc =>
              LWChar_pyLower_fix (hlw c (List.mem_cons_of_mem c0 hc)))
          have hcap : pyCapitalize (c0 :: cs) = pyUpper c0 :: cs := by
            show pyUpper c0 :: cs.map pyLower = _
            rw [hcsfix]
          rw [hcap]
          have hXw : ∀ c ∈ pyUpper c0 :: cs, isWordChar c = true := by
            intro c hc
            rcases List.mem_cons.mp hc with rfl | hc
            · exact LWChar_pyUpper_word hc0
            · exact LWChar_word (hlw c (List.mem_cons_of_mem c0 hc))
          have hXlast : ∀ a, (pyUpper c0 :: cs).reverse.head? = some a →
              a ≠ 95 := by
            intro a ha
            rw [List.reverse_cons] at ha
            cases hcr : cs.reverse with
            | nil =>
                rw [hcr, List.nil_append, List.head?_cons] at ha
                injection ha with ha'
                have hcs : cs = [] := by
                  have := congrArg List.reverse hcr
                  rwa [List.reverse_reverse] at this
                have hc0ne : c0 ≠ 95 := by
                  apply hlast c0
                  rw [List.reverse_cons, hcr]
                  rfl
                rw [← ha']
                intro hcon
                exact hc0ne ((pyUpper_eq_95_iff hc0).mp hcon)
            | cons d ds =>
                rw [hcr, List.cons_append, List.head?_cons] at ha
                injection ha with ha'
                have hd : d ≠ 95 := by
                  apply hlast d
                  rw [List.reverse_cons, hcr]
                  rfl
                rw [← ha']
                exact hd
          show pyCapitalize
              ((replace_symbols_with
                (pyStrip ((pyUpper c0 :: cs).flatMap unidec)) 95).map
                pyLower) = pyUpper c0 :: cs
          rw [flatMap_eq_self_of_forall _ (fun c hc => hu c (hXw c hc)),
            pyStrip_eq_self_of_forall
              (fun c hc => pyIsSpace_eq_false_of_word (hXw c hc)),
            replace_symbols_eq_self hXw hXlast,
            List.map_cons, LWChar_pyLower_pyUpper hc0, hcsfix]
          show pyUpper c0 :: cs.map pyLower = pyUpper c0 :: cs
          rw [hcsfix]

/-- C8: the normalizer is idempotent — for every string, every
transliteration table that fixes the identifier alphabet, and both
casing modes, applying `owl_name` twice equals applying it once. -/
theorem claim_c8_owl_name_idempotent (unidec : Nat → List Nat)
    (hu : ∀ c, isWordChar c = true → unidec c = [c])
    (s : List Nat) (instanceFlag : Bool) :
    owl_name unidec (owl_name unidec s instanceFlag) instanceFlag =
      owl_name unidec s instanceFlag := by
  have h3w : ∀ c ∈ replace_symbols_with (pyStrip (s.flatMap unidec)) 95,
      isWordChar c = true :=
    mem_replace_symbols_word (by decide)
  have h4lw : ∀ c ∈ (replace_symbols_with (pyStrip (s.flatMap unidec))
      95).map pyLower, LWChar c := by
    intro c hc
    rw [List.mem_map] at hc
    rcases hc with ⟨d, hd, rfl⟩
    exact LWChar_pyLower_of_word (h3w d hd)
  have h4last : ∀ a, ((replace_symbols_with (pyStrip (s.flatMap unidec))
      95).map pyLower).reverse.head? = some a → a ≠ 95 := by
    intro a ha
    rw [← List.map_reverse] at ha
    cases h3r : (replace_symbols_with (pyStrip (s.flatMap unidec))
        95).reverse with
    | nil => rw [h3r] at ha; cases ha
    | cons x xs =>
        rw [h3r, List.map_cons, List.head?_cons] at ha
        injection ha with ha'
        rw [← ha']
        intro hcon
        exact replace_symbols_last_ne (by rw [h3r]; rfl)
          ((pyLower_eq_95_iff x).mp hcon)
  have howl : owl_name unidec s instanceFlag =
      if instanceFlag then
        (replace_symbols_with (pyStrip (s.flatMap unidec)) 95).map pyLower
      else pyCapitalize
        ((replace_symbols_with (pyStrip (s.flatMap unidec)) 95).map
          pyLower) := rfl
  rw [howl]
  exact owl_name_fixed_point unidec hu _ h4lw h4last instanceFlag

/-- Witness for C8 on the identity transliteration and the string
`" Hé_o! "` (code points), in both modes. -/
theorem claim_c8_owl_name_idempotent_witness :
    owl_name (fun c => [c])
        (owl_name (fun c => [c]) [32, 72, 233, 95, 111, 33, 32] true)
        true =
      owl_name (fun c => [c]) [32, 72, 233, 95, 111, 33, 32] true ∧
    owl_name (fun c => [c])
        (owl_name (fun c => [c]) [32, 72, 233, 95, 111, 33, 32] false)
        false =
      owl_name (fun c => [c]) [32, 72, 233, 95, 111, 33, 32] false :=
  ⟨claim_c8_owl_name_idempotent (fun c => [c]) (fun _ _ => rfl)
      [32, 72, 233, 95, 111, 33, 32] true,
    claim_c8_owl_name_idempotent (fun c => [c]) (fun _ _ => rfl)
      [32, 72, 233, 95, 111, 33, 32] false⟩

/-- C3: creating "Tweety" under Bird and reclassifying to Penguin
leaves the direct-class set at exactly `[Penguin]` (Bird removed as
too generic); a further reclassify to Animal leaves it unchanged
(Animal rejected because the more specific Penguin is present). -/
theorem claim_c3_tweety_scenario :
    add_instance chainTaxonomy 5 (fun c => [c]) g0Bird AClass.bird
        tweetyRaw true = Except.ok (tweetyG1, tweetyName) ∧
    tweetyG1.is_instance_of tweetyName = [AClass.bird] ∧
    tweetyG2.is_instance_of tweetyName = [AClass.penguin] ∧
    tweetyG3.is_instance_of tweetyName = [AClass.penguin] :=
  ⟨rfl, by decide, by decide, by decide⟩

/-- Searching a list for elements equal to `x`: the first match is `x`
itself and exists exactly when `x` is in the list. -/
theorem head?_filter_self {α : Type} [DecidableEq α] (l : List α)
    (x : α) :
    (l.filter (fun i => decide (i = x))).head? =
      if x ∈ l then some x else none := by
  induction l with
  | nil => simp
  | cons a l ih =>
      by_cases hax : a = x
      · subst hax
        rw [List.filter_cons, if_pos (by simp), List.head?_cons,
          if_pos (List.mem_cons_self a l)]
      · rw [List.filter_cons, if_neg (by simp [hax]), ih]
        by_cases hx : x ∈ l
        · rw [if_pos hx, if_pos (List.mem_cons_of_mem a hx)]
        · rw [if_neg hx, if_neg (by
            intro h
            rcases List.mem_cons.mp h with h | h
            · exact hax h.symm
            · exact hx h)]

/-- C9: `add_instance` fails (with the duplicate-instance error) if and
only if an instance whose canonical name equals the canonicalized raw
name is already among the target class's instances and reuse was
disallowed; in every other case it returns a graph and an instance. -/
theorem claim_c9_add_instance_duplicate {C : Type} [DecidableEq C]
    (t : Taxonomy C) (fuel : Nat) (unidec : Nat → List Nat) (g : Graph C)
    (cls : C) (name : List Nat) (add_to_class_if_existing : Bool) :
    ((∃ e, add_instance t fuel unidec g cls name add_to_class_if_existing
        = Except.error e) ↔
      (owl_name unidec name ∈ instances t fuel g cls ∧
        add_to_class_if_existing = false)) ∧
    (¬ (owl_name unidec name ∈ instances t fuel g cls ∧
        add_to_class_if_existing = false) →
      ∃ g' i, add_instance t fuel unidec g cls name
        add_to_class_if_existing = Except.ok (g', i)) := by
  have hs := head?_filter_self (instances t fuel g cls)
    (owl_name unidec name)
  by_cases hmem : owl_name unidec name ∈ instances t fuel g cls
  · rw [if_pos hmem] at hs
    cases add_to_class_if_existing
    · constructor
      · constructor
        · intro _
          exact ⟨hmem, rfl⟩
        · intro _
          refine ⟨owl_name unidec name, ?_⟩
          unfold add_instance
          simp only [hs]
          rfl
      · intro hcon
        exact absurd ⟨hmem, rfl⟩ hcon
    · constructor
      · constructor
        · rintro ⟨e, he⟩
          unfold add_instance at he
          simp only [hs] at he
          exact absurd he (by simp)
        · rintro ⟨_, hff⟩
          cases hff
      · intro _
        cases hok : add_instance t fuel unidec g cls name true with
        | error e =>
            unfold add_instance at hok
            simp only [hs] at hok
            simp at hok
        | ok p => exact ⟨p.1, p.2, rfl⟩
  · rw [if_neg hmem] at hs
    constructor
    · constructor
      · rintro ⟨e, he⟩
        unfold add_instance at he
        simp only [hs] at he
        exact absurd he (by simp)
      · rintro ⟨hm, _⟩
        exact absurd hm hmem
    · intro _
      cases hok : add_instance t fuel unidec g cls name
          add_to_class_if_existing with
      | error e =>
          unfold add_instance at hok
          simp only [hs] at hok
          simp at hok
      | ok p => exact ⟨p.1, p.2, rfl⟩

/-- Witness for C9 on the Tweety graph: re-adding "Tweety" under Bird
with reuse disallowed errors, with reuse allowed succeeds. -/
theorem claim_c9_add_instance_duplicate_witness :
    (∃ e, add_instance chainTaxonomy 5 (fun c => [c]) tweetyG1
        AClass.bird tweetyRaw false = Except.error e) ∧
    (∃ g' i, add_instance chainTaxonomy 5 (fun c => [c]) tweetyG1
        AClass.bird tweetyRaw true = Except.ok (g', i)) :=
  ⟨(claim_c9_add_instance_duplicate chainTaxonomy 5 (fun c => [c])
      tweetyG1 AClass.bird tweetyRaw false).1.mpr ⟨by decide, rfl⟩,
    (claim_c9_add_instance_duplicate chainTaxonomy 5 (fun c => [c])
      tweetyG1 AClass.bird tweetyRaw true).2 (by simp)⟩

/-! ## Lemmas about `add_property`, the merge folds and `destroy_entity` -/
theorem add_property_mem_preserve {C : Type} [DecidableEq C]
    {g : Graph C} {i p : List Nat} {w : OValue C} {j q : List Nat}
    {v : OValue C} (h : v ∈ g.props j q) :
    v ∈ (add_property g i p w).props j q := by
  unfold add_property
  by_cases hw : w ∈ g.props i p
  · rwa [if_pos hw]
  · rw [if_neg hw]
    show v ∈ (if j = i ∧ q = p then g.props j q ++ [w] else g.props j q)
    by_cases hjq : j = i ∧ q = p
    · rw [if_pos hjq]
      exact List.mem_append_left _ h
    · rwa [if_neg hjq]

theorem add_property_mem_self {C : Type} [DecidableEq C]
    (g : Graph C) (i p : List Nat) (w : OValue C) :
    w ∈ (add_property g i p w).props i p := by
  unfold add_property
  by_cases hw : w ∈ g.props i p
  · rwa [if_pos hw]
  · rw [if_neg hw]
    show w ∈ (if i = i ∧ p = p then g.props i p ++ [w] else g.props i p)
    rw [if_pos ⟨rfl, rfl⟩]
    exact List.mem_append_right _ (List.mem_singleton_self w)

theorem add_property_props_other {C : Type} [DecidableEq C]
    {g : Graph C} {i p : List Nat} {w : OValue C} {j : List Nat}
    (hj : j ≠ i) (q : List Nat) :
    (add_property g i p w).props j q = g.props j q := by
  unfold add_property
  by_cases hw : w ∈ g.props i p
  · rw [if_pos hw]
  · rw [if_neg hw]
    show (if j = i ∧ q = p then g.props j q ++ [w] else g.props j q) = _
    rw [if_neg (fun hc => hj hc.1)]

/-- The inner merge loop: copy every value of one property onto the
survivor. -/
theorem foldl_add_mem_preserve {C : Type} [DecidableEq C]
    (i1 p : List Nat) :
    ∀ (vals : List (OValue C)) (g0 : Graph C) (j q : List Nat)
      (v : OValue C), v ∈ g0.props j q →
      v ∈ (vals.foldl
        (fun g2 value => add_property g2 i1 p value) g0).props j q
  | [], g0, j, q, v, h => h
  | w :: vals, g0, j, q, v, h => by
      rw [List.foldl_cons]
      exact foldl_add_mem_preserve i1 p vals _ j q v
        (add_property_mem_preserve h)

theorem foldl_add_mem_self {C : Type} [DecidableEq C] (i1 p : List Nat) :
    ∀ (vals : List (OValue C)) (g0 : Graph C) (v : OValue C),
      v ∈ vals →
      v ∈ (vals.foldl
        (fun g2 value => add_property g2 i1 p value) g0).props i1 p
  | [], _, v, h => absurd h (List.not_mem_nil v)
  | w :: vals, g0, v, h => by
      rw [List.foldl_cons]
      rcases List.mem_cons.mp h with rfl | h
      · exact foldl_add_mem_preserve i1 p vals _ i1 p v
          (add_property_mem_self g0 i1 p v)
      · exact foldl_add_mem_self i1 p vals _ v h

theorem foldl_add_props_other {C : Type} [DecidableEq C]
    (i1 p : List Nat) :
    ∀ (vals : List (OValue C)) (g0 : Graph C) (j : List Nat),
      j ≠ i1 → ∀ q,
      (vals.foldl
        (fun g2 value => add_property g2 i1 p value) g0).props j q =
        g0.props j q
  | [], _, _, _, _ => rfl
  | w :: vals, g0, j, hj, q => by
      rw [List.foldl_cons,
        foldl_add_props_other i1 p vals _ j hj q,
        add_property_props_other hj q]

theorem foldl_merge_props_other {C : Type} [DecidableEq C]
    (i1 i2 : List Nat) :
    ∀ (plist : List (List Nat)) (g0 : Graph C) (j : List Nat),
      j ≠ i1 → ∀ q,
      (plist.foldl (mergeStep i1 i2) g0).props j q = g0.props j q
  | [], _, _, _, _ => rfl
  | p0 :: plist, g0, j, hj, q => by
      rw [List.foldl_cons, foldl_merge_props_other i1 i2 plist _ j hj q]
      unfold mergeStep
      by_cases hp : p0 ≠ fancyNameKey
      · rw [if_pos hp, foldl_add_props_other i1 p0 _ g0 j hj q]
      · rw [if_neg hp]

theorem foldl_merge_mem_preserve {C : Type} [DecidableEq C]
    (i1 i2 : List Nat) :
    ∀ (plist : List (List Nat)) (g0 : Graph C) (j q : List Nat)
      (v : OValue C), v ∈ g0.props j q →
      v ∈ (plist.foldl (mergeStep i1 i2) g0).props j q
  | [], _, _, _, _, h => h
  | p0 :: plist, g0, j, q, v, h => by
      rw [List.foldl_cons]
      refine foldl_merge_mem_preserve i1 i2 plist _ j q v ?_
      unfold mergeStep
      by_cases hp : p0 ≠ fancyNameKey
      · rw [if_pos hp]
        exact foldl_add_mem_preserve i1 p0 _ g0 j q v h
      · rwa [if_neg hp]

/-- The outer merge loop copies every non-display value of the absorbed
instance onto the survivor (when the two are distinct). -/
theorem foldl_merge_transfer {C : Type} [DecidableEq C]
    {i1 i2 : List Nat} (hne : i2 ≠ i1) :
    ∀ (plist : List (List Nat)) (g0 : Graph C) (p : List Nat),
      p ∈ plist → p ≠ fancyNameKey →
      ∀ v ∈ g0.props i2 p,
      v ∈ (plist.foldl (mergeStep i1 i2) g0).props i1 p
  | [], _, p, hp, _, _, _ => absurd hp (List.not_mem_nil p)
  | p0 :: plist, g0, p, hp, hpf, v, hv => by
      rw [List.foldl_cons]
      rcases List.mem_cons.mp hp with rfl | hp
      · refine foldl_merge_mem_preserve i1 i2 plist _ i1 p v ?_
        unfold mergeStep
        rw [if_pos hpf]
        exact foldl_add_mem_self i1 p _ g0 v hv
      · refine foldl_merge_transfer hne plist _ p hp hpf v ?_
        unfold mergeStep
        by_cases hp0 : p0 ≠ fancyNameKey
        · rw [if_pos hp0, foldl_add_props_other i1 p0 _ g0 i2 hne p]
          exact hv
        · rwa [if_neg hp0]

theorem destroy_entity_not_mem {C : Type} [DecidableEq C] (g : Graph C)
    (i : List Nat) : i ∉ (destroy_entity g i).insts := by
  intro h
  have := List.of_mem_filter h
  simp at this

theorem destroy_entity_mem_props {C : Type} [DecidableEq C]
    {g : Graph C} {i j q : List Nat} {v : OValue C} (hj : j ≠ i)
    (hv : v ≠ OValue.inst i) (h : v ∈ g.props j q) :
    v ∈ (destroy_entity g i).props j q := by
  show v ∈ (if j = i then [] else
    (g.props j q).filter (fun v => decide (v ≠ OValue.inst i)))
  rw [if_neg hj]
  exact List.mem_filter.mpr ⟨h, by simpa using hv⟩

/-! ## Claims C2 and C10 about `merge_instances` -/

/-- The reduction of `merge_instances` when both precondition checks
pass. -/
theorem merge_instances_true {C : Type} [DecidableEq C] (t : Taxonomy C)
    (fuel : Nat) (g : Graph C) (i1 i2 : List Nat) (cls : C)
    (h1 : i1 ∈ instances t fuel g cls) (h2 : i2 ∈ instances t fuel g cls) :
    merge_instances t fuel g i1 i2 cls =
      (true, destroy_entity
        ((get_properties g i2).foldl (mergeStep i1 i2) g) i2) := by
  unfold merge_instances mergeStep
  rw [if_pos h1, if_pos h2]

/-- The reduction of `merge_instances` when a precondition check
fails. -/
theorem merge_instances_false {C : Type} [DecidableEq C] (t : Taxonomy C)
    (fuel : Nat) (g : Graph C) (i1 i2 : List Nat) (cls : C)
    (h : i1 ∉ instances t fuel g cls ∨ i2 ∉ instances t fuel g cls) :
    merge_instances t fuel g i1 i2 cls = (false, g) := by
  unfold merge_instances
  by_cases h1 : i1 ∈ instances t fuel g cls
  · rcases h with h | h
    · exact absurd h1 h
    · rw [if_pos h1, if_neg h]
  · rw [if_neg h1]

/-- C2 (amended): merging with an instance absent from the scoping
class's instance set returns false and leaves the graph unchanged;
otherwise merge returns true and the absorbed instance no longer exists,
and — when the survivor and the absorbed instance are distinct — every
value of every declared property of the absorbed instance, other than
display-name values and references to the absorbed instance itself, is
present in the survivor's corresponding property afterward. -/
theorem claim_c2_merge_instances_amended {C : Type} [DecidableEq C]
    (t : Taxonomy C) (fuel : Nat) (g : Graph C) (i1 i2 : List Nat)
    (cls : C) :
    ((i1 ∉ instances t fuel g cls ∨ i2 ∉ instances t fuel g cls) →
      merge_instances t fuel g i1 i2 cls = (false, g)) ∧
    (i1 ∈ instances t fuel g cls → i2 ∈ instances t fuel g cls →
      (merge_instances t fuel g i1 i2 cls).1 = true ∧
      i2 ∉ (merge_instances t fuel g i1 i2 cls).2.insts ∧
      (i1 ≠ i2 → ∀ p ∈ g.propNames, p ≠ fancyNameKey →
        ∀ v ∈ g.props i2 p, v ≠ OValue.inst i2 →
        v ∈ (merge_instances t fuel g i1 i2 cls).2.props i1 p)) := by
  constructor
  · exact merge_instances_false t fuel g i1 i2 cls
  · intro h1 h2
    rw [merge_instances_true t fuel g i1 i2 cls h1 h2]
    refine ⟨rfl, destroy_entity_not_mem _ i2, ?_⟩
    intro hne p hp hpf v hv hvne
    refine destroy_entity_mem_props hne hvne ?_
    refine foldl_merge_transfer (fun hc => hne hc.symm) _ g p ?_ hpf v hv
    refine List.mem_filter.mpr ⟨hp, ?_⟩
    have hnil : g.props i2 p ≠ [] := List.ne_nil_of_mem hv
    cases hE : (g.props i2 p).isEmpty
    · rfl
    · exact absurd (List.isEmpty_iff.mp hE) hnil

/-- Counterexample to C2 as stated: both instances are among the
scoping class's instances and the merge returns true, yet the value
`inst "b"` held by the absorbed instance `"b"` under the (non
display-name) property `"l"` is NOT present in the survivor's property
afterward — `destroy_entity` cascades and deletes the reference to the
absorbed instance that the merge loop had just copied over. -/
theorem claim_c2_merge_instances_counterexample :
    [97] ∈ instances unitTaxonomy 1 cexGraph () ∧
    [98] ∈ instances unitTaxonomy 1 cexGraph () ∧
    (merge_instances unitTaxonomy 1 cexGraph [97] [98] ()).1 = true ∧
    [108] ∈ cexGraph.propNames ∧
    [108] ≠ fancyNameKey ∧
    OValue.inst [98] ∈ cexGraph.props [98] [108] ∧
    OValue.inst [98] ∉
      (merge_instances unitTaxonomy 1 cexGraph [97] [98] ()).2.props
        [97] [108] := by
  decide

/-- Witness for the amended C2 on the counterexample graph, with a
literal value that does transfer. -/
theorem claim_c2_merge_instances_amended_witness :
    merge_instances unitTaxonomy 1 cexGraph [99] [98] () =
      (false, cexGraph) ∧
    (merge_instances unitTaxonomy 1 cexGraph [97] [98] ()).1 = true ∧
    [98] ∉ (merge_instances unitTaxonomy 1 cexGraph [97] [98] ()).2.insts :=
  ⟨(claim_c2_merge_instances_amended unitTaxonomy 1 cexGraph [99] [98]
      ()).1 (Or.inl (by decide)),
    ((claim_c2_merge_instances_amended unitTaxonomy 1 cexGraph [97] [98]
      ()).2 (by decide) (by decide)).1,
    ((claim_c2_merge_instances_amended unitTaxonomy 1 cexGraph [97] [98]
      ()).2 (by decide) (by decide)).2.1⟩

/-- C10: a self-merge of an instance that is among the scoping class's
instances passes the precondition check and returns true, but the
destroy step deletes the instance itself: the designated survivor no
longer exists afterwards. -/
theorem claim_c10_self_merge {C : Type} [DecidableEq C] (t : Taxonomy C)
    (fuel : Nat) (g : Graph C) (i : List Nat) (cls : C)
    (h : i ∈ instances t fuel g cls) :
    (merge_instances t fuel g i i cls).1 = true ∧
      i ∉ (merge_instances t fuel g i i cls).2.insts := by
  rw [merge_instances_true t fuel g i i cls h h]
  exact ⟨rfl, destroy_entity_not_mem _ i⟩

/-- Witness for C10: self-merging `"b"` on the counterexample graph. -/
theorem claim_c10_self_merge_witness :
    (merge_instances unitTaxonomy 1 cexGraph [98] [98] ()).1 = true ∧
      [98] ∉ (merge_instances unitTaxonomy 1 cexGraph [98] [98] ()).2.insts :=
  claim_c10_self_merge unitTaxonomy 1 cexGraph [98] () (by decide)

end SpecProof

